import Mathlib

/-!
Verification of the sparse linear solver core of `gtsam/linear/EigenOptimizer.cpp`.

The C++ fragment assembles the sparse Jacobian triplets of a Gaussian factor
graph into one augmented sparse matrix `[A | b]` (`obtainSparseMatrix`), and
solves the least-squares problem either by sparse QR on `A` (`solveQR`,
`optimizeEigenQR`) or by sparse Cholesky (`SimplicialLDLT`) on the normal
equations `AᵀA x = Aᵀb` (`solveCholesky`, `optimizeEigenCholesky`), each
dispatched over an ordering-policy string (`"AMD"`, `"COLAMD"`, `"NATURAL"`,
`"METIS"`) that selects the fill-reducing column/symmetric permutation used
by the external Eigen factorization kernel.

The embedding uses exact rational arithmetic in place of IEEE doubles, and
models the external Eigen factorization kernels and ordering algorithms
relationally, following the specification's description of them (least-squares
minimizer for QR, solving the permuted normal system for LDLT, an arbitrary
permutation for each fill-reducing ordering and the identity permutation for
`NATURAL`).
-/

namespace EigenOpt

open Matrix

/-! ### Sparse assembly: `obtainSparseMatrix`

The C++ walks `gfg.sparseJacobian()`'s entries `(row : size_t, col : size_t,
value : double)`, records each as an Eigen triplet, tracks the running maxima
of the row and column indices (both initialised to `0`), builds a sparse
matrix of shape `(rows+1) × (cols+1)` and fills it with `setFromTriplets`,
which sums the values of triplets sharing a coordinate. -/

/-- A sparse Jacobian entry `(row, col, value)` as produced by
`gfg.sparseJacobian()`: `size_t` indices and a real value. -/
abbrev SparseEntry : Type := ℕ × ℕ × ℚ

/-- The running row-index maximum of the assembly loop
(`rows = std::max(rows, temp_rows)` starting from `rows = 0`). -/
def maxRowAcc (entries : List SparseEntry) : ℕ :=
  entries.foldl (fun r e => max r e.1) 0

/-- The running column-index maximum of the assembly loop
(`cols = std::max(cols, temp_cols)` starting from `cols = 0`). -/
def maxColAcc (entries : List SparseEntry) : ℕ :=
  entries.foldl (fun c e => max c e.2.1) 0

/-- Insertion of one triplet: Eigen's `setFromTriplets` adds the value of a
triplet to whatever has already accumulated at its coordinate. -/
def insertTriplet (m : ℕ → ℕ → ℚ) (e : SparseEntry) : ℕ → ℕ → ℚ :=
  fun r c => if e.1 = r ∧ e.2.1 = c then m r c + e.2.2 else m r c

/-- Model of `Ab.setFromTriplets(triplets.begin(), triplets.end())`: accumulate all
triplets into the zero matrix, summing duplicates. -/
def setFromTriplets (entries : List SparseEntry) : ℕ → ℕ → ℚ :=
  entries.foldl insertTriplet (fun _ _ => 0)

/-- The assembled sparse matrix: a shape together with the coefficient at
each coordinate (coordinates outside the shape are never populated). -/
structure SpMat where
  rows : ℕ
  cols : ℕ
  coeff : ℕ → ℕ → ℚ

/-- Model of `obtainSparseMatrix`: assemble the entries into the augmented sparse
matrix `Ab` of shape `(rows + 1) × (cols + 1)`. -/
def obtainSparseMatrix (entries : List SparseEntry) : SpMat :=
  { rows := maxRowAcc entries + 1
    cols := maxColAcc entries + 1
    coeff := setFromTriplets entries }

/-- Declarative description of a coefficient: the sum of the values of all
entries targeting the coordinate `(r, c)`, in sequence order. -/
def entrySum (entries : List SparseEntry) (r c : ℕ) : ℚ :=
  ((entries.filter fun e => e.1 = r ∧ e.2.1 = c).map fun e => e.2.2).sum

theorem setFromTriplets_aux (entries : List SparseEntry) (m : ℕ → ℕ → ℚ)
    (r c : ℕ) :
    entries.foldl insertTriplet m r c = m r c + entrySum entries r c := by
  induction entries generalizing m with
  | nil => simp [entrySum]
  | cons e es ih =>
      simp only [List.foldl_cons, ih, entrySum, List.filter_cons]
      by_cases h : e.1 = r ∧ e.2.1 = c
      · simp [insertTriplet, h, entrySum, add_assoc, add_comm, add_left_comm]
      · simp [insertTriplet, h, entrySum]

/-- The accumulated coefficient is exactly the sum of matching entry values. -/
theorem setFromTriplets_eq_entrySum (entries : List SparseEntry) (r c : ℕ) :
    setFromTriplets entries r c = entrySum entries r c := by
  simpa using setFromTriplets_aux entries (fun _ _ => 0) r c

theorem entrySum_of_no_entry (entries : List SparseEntry) (r c : ℕ)
    (h : ∀ e ∈ entries, e.1 ≠ r ∨ e.2.1 ≠ c) : entrySum entries r c = 0 := by
  induction entries with
  | nil => simp [entrySum]
  | cons e es ih =>
      have he := h e (by simp)
      have hne : ¬(e.1 = r ∧ e.2.1 = c) := by tauto
      have ih' := ih (fun x hx => h x (by simp [hx]))
      simp only [entrySum, List.filter_cons] at ih' ⊢
      rw [if_neg (by simpa using hne)]
      exact ih'

/-- C1, main content: assembled coefficients are sums of matching entries. -/
theorem obtainSparseMatrix_coeff (entries : List SparseEntry) (r c : ℕ) :
    (obtainSparseMatrix entries).coeff r c = entrySum entries r c :=
  setFromTriplets_eq_entrySum entries r c

/-! ### Shape of the assembled matrix -/

theorem foldl_max_init_le {α : Type} (f : α → ℕ) (l : List α) (a : ℕ) :
    a ≤ l.foldl (fun r e => max r (f e)) a := by
  induction l generalizing a with
  | nil => exact le_rfl
  | cons e es ih => exact le_trans (le_max_left a (f e)) (ih (max a (f e)))

theorem foldl_max_le {α : Type} (f : α → ℕ) (l : List α) (a : ℕ) (x : α)
    (hx : x ∈ l) : f x ≤ l.foldl (fun r e => max r (f e)) a := by
  induction l generalizing a with
  | nil => cases hx
  | cons e es ih =>
      rcases List.mem_cons.mp hx with h | h
      · subst h
        rw [List.foldl_cons]
        exact le_trans (le_max_right a (f x)) (foldl_max_init_le f es _)
      · exact ih _ h

theorem foldl_max_mem {α : Type} (f : α → ℕ) (l : List α) (a : ℕ) :
    l.foldl (fun r e => max r (f e)) a ∈ a :: l.map f := by
  induction l generalizing a with
  | nil => simp
  | cons e es ih =>
      have hm := ih (max a (f e))
      rw [List.foldl_cons]
      rcases List.mem_cons.mp hm with h | h
      · rcases max_choice a (f e) with hc | hc <;> rw [h, hc] <;> simp
      · exact List.mem_cons_of_mem _ (List.mem_cons_of_mem _ h)

/-- The row accumulator bounds every row index. -/
theorem le_maxRowAcc (entries : List SparseEntry) (e : SparseEntry)
    (he : e ∈ entries) : e.1 ≤ maxRowAcc entries :=
  foldl_max_le (fun e => e.1) entries 0 e he

/-- The column accumulator bounds every column index. -/
theorem le_maxColAcc (entries : List SparseEntry) (e : SparseEntry)
    (he : e ∈ entries) : e.2.1 ≤ maxColAcc entries :=
  foldl_max_le (fun e => e.2.1) entries 0 e he

/-- On a nonempty entry list, the row accumulator is an attained maximum. -/
theorem maxRowAcc_mem (entries : List SparseEntry) (h : entries ≠ []) :
    maxRowAcc entries ∈ entries.map fun e => e.1 := by
  cases entries with
  | nil => exact absurd rfl h
  | cons e es =>
      have hm := foldl_max_mem (fun e => e.1) es (max 0 e.1)
      rw [Nat.zero_max] at hm
      unfold maxRowAcc
      rw [List.foldl_cons, Nat.zero_max]
      simpa using hm

theorem maxColAcc_mem (entries : List SparseEntry) (h : entries ≠ []) :
    maxColAcc entries ∈ entries.map fun e => e.2.1 := by
  cases entries with
  | nil => exact absurd rfl h
  | cons e es =>
      have hm := foldl_max_mem (fun e => e.2.1) es (max 0 e.2.1)
      rw [Nat.zero_max] at hm
      unfold maxColAcc
      rw [List.foldl_cons, Nat.zero_max]
      simpa using hm

/-! ### Permutation invariance of assembly -/

theorem maxRowAcc_perm {l₁ l₂ : List SparseEntry} (h : l₁.Perm l₂) :
    maxRowAcc l₁ = maxRowAcc l₂ := by
  unfold maxRowAcc
  have inst : RightCommutative fun (r : ℕ) (e : SparseEntry) => max r e.1 :=
    ⟨fun b a₁ a₂ => by rw [max_assoc, max_comm a₁.1 a₂.1, max_assoc]⟩
  exact h.foldl_eq 0

theorem maxColAcc_perm {l₁ l₂ : List SparseEntry} (h : l₁.Perm l₂) :
    maxColAcc l₁ = maxColAcc l₂ := by
  unfold maxColAcc
  have inst : RightCommutative fun (c : ℕ) (e : SparseEntry) => max c e.2.1 :=
    ⟨fun b a₁ a₂ => by rw [max_assoc, max_comm a₁.2.1 a₂.2.1, max_assoc]⟩
  exact h.foldl_eq 0

theorem entrySum_perm {l₁ l₂ : List SparseEntry} (h : l₁.Perm l₂) (r c : ℕ) :
    entrySum l₁ r c = entrySum l₂ r c :=
  List.Perm.sum_eq (List.Perm.map _ (List.Perm.filter _ h))

/-! ### Assembly of out-of-domain (malformed) entries

The C++ assembly loop performs no validation of the incoming indices: it
binds `size_t temp_rows = e.get<0>(), temp_cols = e.get<1>();` and emplaces
the triplet unconditionally.  If an upstream producer hands an entry whose
index is a negative integer, the `size_t` binding converts it modulo `2^64`
(the C++ unsigned conversion), the shape expression `rows + 1` in
`SpMat Ab(rows + 1, cols + 1)` is `size_t` arithmetic and wraps modulo
`2^64`, and `Eigen::Triplet<double>` stores the indices narrowed to its
default `StorageIndex`, a 32-bit two's-complement `int`.
`Ab.setFromTriplets` requires every triplet index to lie within the matrix
bounds (it asserts in debug builds and is undefined behavior otherwise);
the trace below models that boundary of defined behavior as `none`. -/

/-- The C++ conversion of an integer to `size_t`: reduction modulo `2^64`. -/
def toSizeT (z : ℤ) : ℕ := (z % (2 ^ 64 : ℤ)).toNat

/-- The `size_t` additions `rows + 1`, `cols + 1` of
`SpMat Ab(rows + 1, cols + 1)`: addition wrapping modulo `2^64`. -/
def addSizeT (a b : ℕ) : ℕ := (a + b) % 2 ^ 64

/-- Narrowing a `size_t` value to `Eigen::Triplet<double>`'s default
`StorageIndex` (`int`): 32-bit two's-complement conversion. -/
def toStorageInt (n : ℕ) : ℤ :=
  if n % 2 ^ 32 < 2 ^ 31 then ((n % 2 ^ 32 : ℕ) : ℤ)
  else ((n % 2 ^ 32 : ℕ) : ℤ) - 2 ^ 32

/-- A raw entry as the specification types it: integer indices (which are
supposed to be non-negative) and a real value. -/
abbrev RawEntry : Type := ℤ × ℤ × ℚ

/-- The raw entries after the `size_t` binding of the assembly loop. -/
def convRaw (entries : List RawEntry) : List SparseEntry :=
  entries.map fun e => (toSizeT e.1, toSizeT e.2.1, e.2.2)

/-- The precondition of `Ab.setFromTriplets` for one triplet: its stored
(`int`-narrowed) indices lie within the matrix bounds. -/
def tripletInBounds (shapeRows shapeCols : ℕ) (e : SparseEntry) : Bool :=
  decide (0 ≤ toStorageInt e.1) &&
  decide (toStorageInt e.1 < (shapeRows : ℤ)) &&
  decide (0 ≤ toStorageInt e.2.1) &&
  decide (toStorageInt e.2.1 < (shapeCols : ℤ))

/-- Assembly applied to raw integer-indexed entries, traced to the boundary
of defined behavior: indices pass the `size_t` binding unconditionally (no
validation anywhere), the shape is computed with `size_t` wrap-around, and
the assembled matrix is produced exactly when every `int`-narrowed triplet
index respects `setFromTriplets`'s bounds precondition; otherwise the
program's behavior is an assertion failure / undefined (`none`). -/
def obtainSparseMatrixZ (entries : List RawEntry) : Option SpMat :=
  if (convRaw entries).all
      (tripletInBounds (addSizeT (maxRowAcc (convRaw entries)) 1)
        (addSizeT (maxColAcc (convRaw entries)) 1)) then
    some { rows := addSizeT (maxRowAcc (convRaw entries)) 1
           cols := addSizeT (maxColAcc (convRaw entries)) 1
           coeff := setFromTriplets (convRaw entries) }
  else none

theorem toSizeT_of_range (z : ℤ) (h0 : 0 ≤ z) (h1 : z < 2 ^ 31) :
    toSizeT z = z.toNat ∧ toSizeT z < 2 ^ 31 := by
  unfold toSizeT
  rw [Int.emod_eq_of_lt h0 (lt_trans h1 (by norm_num))]
  exact ⟨rfl, by omega⟩

theorem toStorageInt_of_small (n : ℕ) (h : n < 2 ^ 31) :
    toStorageInt n = (n : ℤ) := by
  unfold toStorageInt
  rw [Nat.mod_eq_of_lt (lt_trans h (by norm_num))]
  rw [if_pos h]

/-- Every index the assembly loop actually sees in a well-formed factor
graph is small; then nothing wraps or narrows and the traced assembly
returns exactly the total model `obtainSparseMatrix` on the converted
entries. -/
theorem obtainSparseMatrixZ_of_wellFormed (entries : List RawEntry)
    (h : ∀ e ∈ entries, 0 ≤ e.1 ∧ e.1 < 2 ^ 31 ∧ 0 ≤ e.2.1 ∧ e.2.1 < 2 ^ 31) :
    obtainSparseMatrixZ entries = some (obtainSparseMatrix (convRaw entries)) := by
  have hsmall : ∀ e ∈ convRaw entries, e.1 < 2 ^ 31 ∧ e.2.1 < 2 ^ 31 := by
    intro e he
    obtain ⟨e₀, he₀, rfl⟩ := List.mem_map.mp he
    obtain ⟨h1, h2, h3, h4⟩ := h e₀ he₀
    exact ⟨(toSizeT_of_range e₀.1 h1 h2).2, (toSizeT_of_range e₀.2.1 h3 h4).2⟩
  have hrowMax : maxRowAcc (convRaw entries) < 2 ^ 31 := by
    have hmem := foldl_max_mem (fun e => e.1) (convRaw entries) 0
    rcases List.mem_cons.mp hmem with hm | hm
    · rw [maxRowAcc, hm]
      norm_num
    · obtain ⟨e, he, hval⟩ := List.mem_map.mp hm
      rw [maxRowAcc, ← hval]
      exact (hsmall e he).1
  have hcolMax : maxColAcc (convRaw entries) < 2 ^ 31 := by
    have hmem := foldl_max_mem (fun e => e.2.1) (convRaw entries) 0
    rcases List.mem_cons.mp hmem with hm | hm
    · rw [maxColAcc, hm]
      norm_num
    · obtain ⟨e, he, hval⟩ := List.mem_map.mp hm
      rw [maxColAcc, ← hval]
      exact (hsmall e he).2
  have hrowShape : addSizeT (maxRowAcc (convRaw entries)) 1 =
      maxRowAcc (convRaw entries) + 1 := by
    unfold addSizeT
    exact Nat.mod_eq_of_lt (by omega)
  have hcolShape : addSizeT (maxColAcc (convRaw entries)) 1 =
      maxColAcc (convRaw entries) + 1 := by
    unfold addSizeT
    exact Nat.mod_eq_of_lt (by omega)
  have hall : (convRaw entries).all
      (tripletInBounds (addSizeT (maxRowAcc (convRaw entries)) 1)
        (addSizeT (maxColAcc (convRaw entries)) 1)) = true := by
    rw [List.all_eq_true]
    intro e he
    have h1 := (hsmall e he).1
    have h2 := (hsmall e he).2
    have hr := le_maxRowAcc (convRaw entries) e he
    have hc := le_maxColAcc (convRaw entries) e he
    unfold tripletInBounds
    rw [toStorageInt_of_small e.1 h1, toStorageInt_of_small e.2.1 h2,
      hrowShape, hcolShape]
    simp only [Bool.and_eq_true, decide_eq_true_eq]
    refine ⟨⟨⟨Int.ofNat_nonneg e.1, ?_⟩, Int.ofNat_nonneg e.2.1⟩, ?_⟩
    · exact_mod_cast Nat.lt_succ_of_le hr
    · exact_mod_cast Nat.lt_succ_of_le hc
  rw [obtainSparseMatrixZ, if_pos hall, hrowShape, hcolShape]
  rfl

/-! ### The least-squares layer

`solveQR` splits `Ab` into `A = Ab.block(0, 0, rows, cols - 1)` and
`b = Ab.col(cols - 1)` and hands `A` to Eigen's `SparseQR`, which is
specified to return the least-squares minimizer of `‖Ax − b‖₂` computed on
the column-permuted matrix `A·P`, `P` being produced by the ordering
algorithm selected by the template parameter.  `solveCholesky` forms
`At * A` and `At * b` and hands them to Eigen's `SimplicialLDLT`, which is
specified to solve the (symmetrically permuted) normal system exactly.
Both kernels and all ordering algorithms are external to the fragment and
are modelled relationally from the specification. -/

/-- The coefficient block `A`: all columns of `Ab` but the last
(`Ab.block(0, 0, rows, cols - 1)`). -/
def SpMat.Amat (M : SpMat) : Matrix (Fin M.rows) (Fin (M.cols - 1)) ℚ :=
  fun i j => M.coeff i j

/-- The right-hand side `b`: the last column of `Ab` (`Ab.col(cols - 1)`). -/
def SpMat.bvec (M : SpMat) : Fin M.rows → ℚ :=
  fun i => M.coeff i (M.cols - 1)

/-- Squared Euclidean norm of the residual `A x − b`. -/
def resSq {m n : ℕ} (A : Matrix (Fin m) (Fin n) ℚ) (b : Fin m → ℚ)
    (x : Fin n → ℚ) : ℚ :=
  dotProduct (A.mulVec x - b) (A.mulVec x - b)

/-- Modelled from the spec: the result of the sparse QR kernel is an `x`
minimizing `‖Ax − b‖₂` in the least-squares sense. -/
def IsLeastSquares {m n : ℕ} (A : Matrix (Fin m) (Fin n) ℚ) (b : Fin m → ℚ)
    (x : Fin n → ℚ) : Prop :=
  ∀ y, resSq A b x ≤ resSq A b y

/-- Full column rank of `A`: only the zero vector is annihilated. -/
def FullColRank {m n : ℕ} (A : Matrix (Fin m) (Fin n) ℚ) : Prop :=
  ∀ v, A.mulVec v = 0 → v = 0

theorem dotProduct_self_nonneg {m : ℕ} (v : Fin m → ℚ) :
    0 ≤ dotProduct v v :=
  Finset.sum_nonneg fun i _ => mul_self_nonneg (v i)

theorem dotProduct_self_eq_zero {m : ℕ} (v : Fin m → ℚ)
    (h : dotProduct v v = 0) : v = 0 := by
  funext i
  have hterm : ∀ j ∈ Finset.univ, (0 : ℚ) ≤ v j * v j :=
    fun j _ => mul_self_nonneg (v j)
  have := (Finset.sum_eq_zero_iff_of_nonneg hterm).mp h i (Finset.mem_univ i)
  have := mul_self_eq_zero.mp this
  simpa using this

/-- The residual dotted against `A d` equals `Aᵀ r` dotted against `d`. -/
theorem dot_mulVec_eq {m n : ℕ} (A : Matrix (Fin m) (Fin n) ℚ)
    (r : Fin m → ℚ) (d : Fin n → ℚ) :
    dotProduct r (A.mulVec d) = dotProduct (Aᵀ.mulVec r) d := by
  rw [dotProduct_mulVec, Matrix.mulVec_transpose]

/-- Quadratic expansion of the residual at `x + d`. -/
theorem resSq_add {m n : ℕ} (A : Matrix (Fin m) (Fin n) ℚ) (b : Fin m → ℚ)
    (x d : Fin n → ℚ) :
    resSq A b (x + d) =
      resSq A b x + 2 * dotProduct (Aᵀ.mulVec (A.mulVec x - b)) d +
        dotProduct (A.mulVec d) (A.mulVec d) := by
  unfold resSq
  rw [Matrix.mulVec_add]
  have hr : A.mulVec x + A.mulVec d - b = (A.mulVec x - b) + A.mulVec d := by
    abel
  rw [hr, dotProduct_add, add_dotProduct, add_dotProduct,
    dotProduct_comm (A.mulVec d) (A.mulVec x - b), dot_mulVec_eq]
  ring

/-- If the normal equations hold at `x` then `x` is a least-squares
minimizer. -/
theorem isLeastSquares_of_normal {m n : ℕ} (A : Matrix (Fin m) (Fin n) ℚ)
    (b : Fin m → ℚ) (x : Fin n → ℚ)
    (h : (Aᵀ * A).mulVec x = Aᵀ.mulVec b) : IsLeastSquares A b x := by
  have hres : Aᵀ.mulVec (A.mulVec x - b) = 0 := by
    rw [Matrix.mulVec_sub, Matrix.mulVec_mulVec, h, sub_self]
  intro y
  have hy : y = x + (y - x) := by abel
  rw [hy, resSq_add, hres]
  simp only [Matrix.zero_dotProduct, dotProduct_zero, mul_zero, add_zero]
  have := dotProduct_self_nonneg (A.mulVec (y - x))
  linarith

/-- If `x` is a least-squares minimizer then the normal equations hold. -/
theorem normal_of_isLeastSquares {m n : ℕ} (A : Matrix (Fin m) (Fin n) ℚ)
    (b : Fin m → ℚ) (x : Fin n → ℚ) (hx : IsLeastSquares A b x) :
    (Aᵀ * A).mulVec x = Aᵀ.mulVec b := by
  have key : Aᵀ.mulVec (A.mulVec x - b) = 0 := by
    by_contra hg
    set g : Fin n → ℚ := Aᵀ.mulVec (A.mulVec x - b) with hgdef
    have hs : 0 < dotProduct g g := by
      rcases lt_or_eq_of_le (dotProduct_self_nonneg g) with h | h
      · exact h
      · exact absurd (dotProduct_self_eq_zero g h.symm) hg
    set s : ℚ := dotProduct g g with hsdef
    set q : ℚ := dotProduct (A.mulVec g) (A.mulVec g) with hqdef
    have hq : 0 ≤ q := dotProduct_self_nonneg (A.mulVec g)
    have htest : ∀ t : ℚ, 0 ≤ 2 * t * s + t ^ 2 * q := by
      intro t
      have hmin := hx (x + t • g)
      rw [resSq_add] at hmin
      have hdot : dotProduct g (t • g) = t * s := by
        rw [dotProduct_smul, hsdef, smul_eq_mul]
      rw [← hgdef, hdot, Matrix.mulVec_smul, dotProduct_smul,
        smul_dotProduct, ← hqdef, smul_eq_mul, smul_eq_mul] at hmin
      nlinarith [hmin]
    by_cases hq0 : q = 0
    · have := htest (-1)
      rw [hq0] at this
      nlinarith [this, hs]
    · have hqpos : 0 < q := lt_of_le_of_ne hq (Ne.symm hq0)
      have := htest (-(s / q))
      have hssq : 0 < s * s := mul_pos hs hs
      have : 0 ≤ -(s * s) / q := by
        have hcalc : 2 * (-(s / q)) * s + (-(s / q)) ^ 2 * q = -(s * s) / q := by
          field_simp
          ring
        rw [hcalc] at this
        exact this
      have : -(s * s) / q < 0 := div_neg_of_neg_of_pos (by linarith) hqpos
      linarith
  rw [Matrix.mulVec_sub] at key
  rw [← Matrix.mulVec_mulVec]
  exact sub_eq_zero.mp key

/-- Least-squares characterization: the Eigen QR kernel's result is exactly
a solution of the normal equations. -/
theorem isLeastSquares_iff_normal {m n : ℕ} (A : Matrix (Fin m) (Fin n) ℚ)
    (b : Fin m → ℚ) (x : Fin n → ℚ) :
    IsLeastSquares A b x ↔ (Aᵀ * A).mulVec x = Aᵀ.mulVec b :=
  ⟨normal_of_isLeastSquares A b x, isLeastSquares_of_normal A b x⟩

/-- With full column rank the normal equations pin the solution down. -/
theorem normal_unique {m n : ℕ} (A : Matrix (Fin m) (Fin n) ℚ)
    (b : Fin m → ℚ) (x₁ x₂ : Fin n → ℚ) (hA : FullColRank A)
    (h₁ : (Aᵀ * A).mulVec x₁ = Aᵀ.mulVec b)
    (h₂ : (Aᵀ * A).mulVec x₂ = Aᵀ.mulVec b) : x₁ = x₂ := by
  have hd : (Aᵀ * A).mulVec (x₁ - x₂) = 0 := by
    rw [Matrix.mulVec_sub, h₁, h₂, sub_self]
  have hAd : A.mulVec (x₁ - x₂) = 0 := by
    have hdot : dotProduct (A.mulVec (x₁ - x₂)) (A.mulVec (x₁ - x₂)) = 0 := by
      rw [dotProduct_comm, dot_mulVec_eq, Matrix.mulVec_mulVec, hd,
        Matrix.zero_dotProduct]
    exact dotProduct_self_eq_zero _ hdot
  have := hA (x₁ - x₂) hAd
  exact sub_eq_zero.mp this

/-! ### Ordering policies as permutations

`AMDOrdering`, `COLAMDOrdering` and `MetisOrdering` are external algorithms;
each produces some fill-reducing permutation from the sparsity pattern.
`NaturalOrdering` is the identity permutation.  Modelled from the spec: the
QR kernel factorizes the column-permuted matrix `A·P` and permutes the
computed coefficients back; the LDLT kernel factorizes the symmetrically
permuted normal matrix `P·N·Pᵀ` and permutes the solution back. -/

/-- The column-permuted matrix `A·P` handed to the QR factorization. -/
def colPerm {m n : ℕ} (A : Matrix (Fin m) (Fin n) ℚ)
    (σ : Equiv.Perm (Fin n)) : Matrix (Fin m) (Fin n) ℚ :=
  fun i j => A i (σ j)

theorem colPerm_mulVec {m n : ℕ} (A : Matrix (Fin m) (Fin n) ℚ)
    (σ : Equiv.Perm (Fin n)) (y : Fin n → ℚ) :
    (colPerm A σ).mulVec y = A.mulVec fun k => y (σ.symm k) := by
  funext i
  simp only [Matrix.mulVec, dotProduct, colPerm]
  refine Fintype.sum_equiv σ _ _ ?_
  intro j
  rw [Equiv.symm_apply_apply]

/-- Modelled from the spec: the sparse QR kernel under ordering permutation
`σ` computes a least-squares solution of the column-permuted system and
returns the back-permuted coefficients. -/
def QRResult {m n : ℕ} (σ : Equiv.Perm (Fin n))
    (A : Matrix (Fin m) (Fin n) ℚ) (b : Fin m → ℚ) (x : Fin n → ℚ) : Prop :=
  ∃ y, IsLeastSquares (colPerm A σ) b y ∧ x = fun j => y (σ.symm j)

theorem resSq_colPerm {m n : ℕ} (A : Matrix (Fin m) (Fin n) ℚ)
    (σ : Equiv.Perm (Fin n)) (b : Fin m → ℚ) (y : Fin n → ℚ) :
    resSq (colPerm A σ) b y = resSq A b fun k => y (σ.symm k) := by
  unfold resSq
  rw [colPerm_mulVec]

/-- The QR result relation does not depend on the ordering permutation: it
is exactly least-squares minimization of the unpermuted system. -/
theorem qrResult_iff {m n : ℕ} (σ : Equiv.Perm (Fin n))
    (A : Matrix (Fin m) (Fin n) ℚ) (b : Fin m → ℚ) (x : Fin n → ℚ) :
    QRResult σ A b x ↔ IsLeastSquares A b x := by
  constructor
  · rintro ⟨y, hy, rfl⟩
    intro z
    have h1 := hy fun j => z (σ j)
    rw [resSq_colPerm, resSq_colPerm] at h1
    have h2 : (fun k => z (σ (σ.symm k))) = z := by
      funext k
      rw [Equiv.apply_symm_apply]
    rwa [h2] at h1
  · intro hx
    refine ⟨fun j => x (σ j), ?_, ?_⟩
    · intro z
      rw [resSq_colPerm, resSq_colPerm]
      have h2 : (fun k => x (σ (σ.symm k))) = x := by
        funext k
        rw [Equiv.apply_symm_apply]
      rw [h2]
      exact hx _
    · funext j
      simp

/-- The symmetrically permuted matrix `P·N·Pᵀ` handed to `SimplicialLDLT`. -/
def symPerm {n : ℕ} (N : Matrix (Fin n) (Fin n) ℚ)
    (σ : Equiv.Perm (Fin n)) : Matrix (Fin n) (Fin n) ℚ :=
  fun i j => N (σ i) (σ j)

/-- Modelled from the spec: the sparse LDLT kernel under ordering
permutation `σ` solves the permuted system exactly (forward/back
substitution through the factor) and returns the back-permuted solution. -/
def LDLTResult {n : ℕ} (σ : Equiv.Perm (Fin n))
    (N : Matrix (Fin n) (Fin n) ℚ) (c : Fin n → ℚ) (x : Fin n → ℚ) : Prop :=
  ∃ y, (symPerm N σ).mulVec y = (fun i => c (σ i)) ∧ x = fun j => y (σ.symm j)

theorem symPerm_mulVec {n : ℕ} (N : Matrix (Fin n) (Fin n) ℚ)
    (σ : Equiv.Perm (Fin n)) (y : Fin n → ℚ) (i : Fin n) :
    (symPerm N σ).mulVec y i = N.mulVec (fun k => y (σ.symm k)) (σ i) := by
  simp only [Matrix.mulVec, dotProduct, symPerm]
  refine Fintype.sum_equiv σ _ _ ?_
  intro j
  rw [Equiv.symm_apply_apply]

/-- The LDLT result relation does not depend on the ordering permutation: it
is exactly solving `N x = c`. -/
theorem ldltResult_iff {n : ℕ} (σ : Equiv.Perm (Fin n))
    (N : Matrix (Fin n) (Fin n) ℚ) (c : Fin n → ℚ) (x : Fin n → ℚ) :
    LDLTResult σ N c x ↔ N.mulVec x = c := by
  constructor
  · rintro ⟨y, hy, rfl⟩
    funext k
    have := congrFun hy (σ.symm k)
    rw [symPerm_mulVec, Equiv.apply_symm_apply] at this
    exact this
  · intro hx
    refine ⟨fun j => x (σ j), ?_, ?_⟩
    · funext i
      rw [symPerm_mulVec]
      have h2 : (fun k => x (σ (σ.symm k))) = x := by
        funext k
        rw [Equiv.apply_symm_apply]
      rw [h2, hx]
    · funext j
      simp

/-! ### The two solve strategies on the assembled matrix -/

/-- Model of `solveQR<EigenSolverType>(Ab)`: split `Ab` into the coefficient block
and the last column, and run the sparse QR kernel under the ordering
permutation `σ` carried by the solver's template parameter. -/
def solveQR (Ab : SpMat) (σ : Equiv.Perm (Fin (Ab.cols - 1)))
    (x : Fin (Ab.cols - 1) → ℚ) : Prop :=
  QRResult σ Ab.Amat Ab.bvec x

/-- Model of `solveCholesky<EigenSolverType>(Ab)`: split `Ab` into `A` and `b`, form
`At * A` and `At * b`, and run the sparse LDLT kernel on the normal system
under the ordering permutation `σ` carried by the template parameter. -/
def solveCholesky (Ab : SpMat) (σ : Equiv.Perm (Fin (Ab.cols - 1)))
    (x : Fin (Ab.cols - 1) → ℚ) : Prop :=
  LDLTResult σ (Ab.Amatᵀ * Ab.Amat) (Ab.Amatᵀ.mulVec Ab.bvec) x

/-! ### The two solve entry points

Both entry points declare `Eigen::VectorXd x;` (default-constructed), run an
`if`/`else if` chain over the ordering string with no final `else`, and
return `VectorValues(x, gfg.getKeyDimMap())`.  An unrecognized string falls
through every branch and leaves `x` default-constructed. -/

/-- The state of the local `Eigen::VectorXd x`: either still the
default-constructed (indeterminate/empty) vector, or a computed vector. -/
inductive EigenVec where
  | indeterminate : EigenVec
  | vec : (n : ℕ) → (Fin n → ℚ) → EigenVec

/-- The factor graph's key-to-dimension map (`gfg.getKeyDimMap()`), read
only to build the returned `VectorValues`. -/
abbrev KeyDimMap : Type := List (ℕ × ℕ)

/-- The returned `VectorValues(x, keyDimMap)`: the solution vector paired
with the key-to-dimension map it is laid out by. -/
structure VectorValues where
  sol : EigenVec
  keyDims : KeyDimMap

/-- Model of `optimizeEigenQR(gfg, orderingType)`: assemble, dispatch the ordering
string over the four recognized case-sensitive tokens (each handing the QR
kernel the permutation computed by the selected external ordering algorithm,
the identity for `NATURAL`), and wrap whatever `x` holds into
`VectorValues`. -/
def optimizeEigenQR (entries : List SparseEntry) (orderingType : String)
    (keyDimMap : KeyDimMap) (res : VectorValues) : Prop :=
  let Ab := obtainSparseMatrix entries
  if orderingType = "AMD" then
    ∃ σ x, solveQR Ab σ x ∧ res = ⟨EigenVec.vec (Ab.cols - 1) x, keyDimMap⟩
  else if orderingType = "COLAMD" then
    ∃ σ x, solveQR Ab σ x ∧ res = ⟨EigenVec.vec (Ab.cols - 1) x, keyDimMap⟩
  else if orderingType = "NATURAL" then
    ∃ x, solveQR Ab 1 x ∧ res = ⟨EigenVec.vec (Ab.cols - 1) x, keyDimMap⟩
  else if orderingType = "METIS" then
    ∃ σ x, solveQR Ab σ x ∧ res = ⟨EigenVec.vec (Ab.cols - 1) x, keyDimMap⟩
  else res = ⟨EigenVec.indeterminate, keyDimMap⟩

/-- Model of `optimizeEigenCholesky(gfg, orderingType)`: identical dispatch structure,
with the Cholesky strategy in every recognized branch. -/
def optimizeEigenCholesky (entries : List SparseEntry) (orderingType : String)
    (keyDimMap : KeyDimMap) (res : VectorValues) : Prop :=
  let Ab := obtainSparseMatrix entries
  if orderingType = "AMD" then
    ∃ σ x, solveCholesky Ab σ x ∧
      res = ⟨EigenVec.vec (Ab.cols - 1) x, keyDimMap⟩
  else if orderingType = "COLAMD" then
    ∃ σ x, solveCholesky Ab σ x ∧
      res = ⟨EigenVec.vec (Ab.cols - 1) x, keyDimMap⟩
  else if orderingType = "NATURAL" then
    ∃ x, solveCholesky Ab 1 x ∧
      res = ⟨EigenVec.vec (Ab.cols - 1) x, keyDimMap⟩
  else if orderingType = "METIS" then
    ∃ σ x, solveCholesky Ab σ x ∧
      res = ⟨EigenVec.vec (Ab.cols - 1) x, keyDimMap⟩
  else res = ⟨EigenVec.indeterminate, keyDimMap⟩

/-! ### Ordering-independent normal forms of the entry points -/

theorem solveQR_iff (Ab : SpMat) (σ : Equiv.Perm (Fin (Ab.cols - 1)))
    (x : Fin (Ab.cols - 1) → ℚ) :
    solveQR Ab σ x ↔ IsLeastSquares Ab.Amat Ab.bvec x :=
  qrResult_iff σ Ab.Amat Ab.bvec x

theorem solveCholesky_iff (Ab : SpMat) (σ : Equiv.Perm (Fin (Ab.cols - 1)))
    (x : Fin (Ab.cols - 1) → ℚ) :
    solveCholesky Ab σ x ↔
      (Ab.Amatᵀ * Ab.Amat).mulVec x = Ab.Amatᵀ.mulVec Ab.bvec :=
  ldltResult_iff σ (Ab.Amatᵀ * Ab.Amat) (Ab.Amatᵀ.mulVec Ab.bvec) x

/-- The set of ordering tokens the `if`/`else if` chains recognize. -/
def recognizedOrderings : List String := ["AMD", "COLAMD", "NATURAL", "METIS"]

theorem optimizeEigenQR_recognized (entries : List SparseEntry)
    (orderingType : String) (keyDimMap : KeyDimMap) (res : VectorValues)
    (h : orderingType ∈ recognizedOrderings) :
    optimizeEigenQR entries orderingType keyDimMap res ↔
      ∃ x, IsLeastSquares (obtainSparseMatrix entries).Amat
          (obtainSparseMatrix entries).bvec x ∧
        res = ⟨EigenVec.vec ((obtainSparseMatrix entries).cols - 1) x,
          keyDimMap⟩ := by
  have hcase : orderingType = "AMD" ∨ orderingType = "COLAMD" ∨
      orderingType = "NATURAL" ∨ orderingType = "METIS" := by
    simpa [recognizedOrderings] using h
  unfold optimizeEigenQR
  rcases hcase with hc | hc | hc | hc <;> subst hc <;>
    simp only [if_pos rfl, String.reduceEq, ite_false, if_neg] <;>
    constructor
  · rintro ⟨σ, x, hx, rfl⟩
    exact ⟨x, (solveQR_iff _ σ x).mp hx, rfl⟩
  · rintro ⟨x, hx, rfl⟩
    exact ⟨1, x, (solveQR_iff _ 1 x).mpr hx, rfl⟩
  · rintro ⟨σ, x, hx, rfl⟩
    exact ⟨x, (solveQR_iff _ σ x).mp hx, rfl⟩
  · rintro ⟨x, hx, rfl⟩
    exact ⟨1, x, (solveQR_iff _ 1 x).mpr hx, rfl⟩
  · rintro ⟨x, hx, rfl⟩
    exact ⟨x, (solveQR_iff _ 1 x).mp hx, rfl⟩
  · rintro ⟨x, hx, rfl⟩
    exact ⟨x, (solveQR_iff _ 1 x).mpr hx, rfl⟩
  · rintro ⟨σ, x, hx, rfl⟩
    exact ⟨x, (solveQR_iff _ σ x).mp hx, rfl⟩
  · rintro ⟨x, hx, rfl⟩
    exact ⟨1, x, (solveQR_iff _ 1 x).mpr hx, rfl⟩

theorem optimizeEigenCholesky_recognized (entries : List SparseEntry)
    (orderingType : String) (keyDimMap : KeyDimMap) (res : VectorValues)
    (h : orderingType ∈ recognizedOrderings) :
    optimizeEigenCholesky entries orderingType keyDimMap res ↔
      ∃ x, ((obtainSparseMatrix entries).Amatᵀ *
            (obtainSparseMatrix entries).Amat).mulVec x =
          (obtainSparseMatrix entries).Amatᵀ.mulVec
            (obtainSparseMatrix entries).bvec ∧
        res = ⟨EigenVec.vec ((obtainSparseMatrix entries).cols - 1) x,
          keyDimMap⟩ := by
  have hcase : orderingType = "AMD" ∨ orderingType = "COLAMD" ∨
      orderingType = "NATURAL" ∨ orderingType = "METIS" := by
    simpa [recognizedOrderings] using h
  unfold optimizeEigenCholesky
  rcases hcase with hc | hc | hc | hc <;> subst hc <;>
    simp only [if_pos rfl, String.reduceEq, ite_false, if_neg] <;>
    constructor
  · rintro ⟨σ, x, hx, rfl⟩
    exact ⟨x, (solveCholesky_iff _ σ x).mp hx, rfl⟩
  · rintro ⟨x, hx, rfl⟩
    exact ⟨1, x, (solveCholesky_iff _ 1 x).mpr hx, rfl⟩
  · rintro ⟨σ, x, hx, rfl⟩
    exact ⟨x, (solveCholesky_iff _ σ x).mp hx, rfl⟩
  · rintro ⟨x, hx, rfl⟩
    exact ⟨1, x, (solveCholesky_iff _ 1 x).mpr hx, rfl⟩
  · rintro ⟨x, hx, rfl⟩
    exact ⟨x, (solveCholesky_iff _ 1 x).mp hx, rfl⟩
  · rintro ⟨x, hx, rfl⟩
    exact ⟨x, (solveCholesky_iff _ 1 x).mpr hx, rfl⟩
  · rintro ⟨σ, x, hx, rfl⟩
    exact ⟨x, (solveCholesky_iff _ σ x).mp hx, rfl⟩
  · rintro ⟨x, hx, rfl⟩
    exact ⟨1, x, (solveCholesky_iff _ 1 x).mpr hx, rfl⟩

/-! ## The claims -/

/-- C1: For every finite sequence of sparse entries, assembly produces a
matrix in which the coefficient at each `(row, col)` coordinate equals the
sum of the values of all entries targeting that coordinate (later duplicate
entries add to, never replace, earlier ones), and every coordinate with no
entry is zero. -/
theorem assemble_coeff_is_entry_sum (entries : List SparseEntry) (r c : ℕ) :
    (obtainSparseMatrix entries).coeff r c = entrySum entries r c ∧
      ((∀ e ∈ entries, e.1 ≠ r ∨ e.2.1 ≠ c) →
        (obtainSparseMatrix entries).coeff r c = 0) :=
  ⟨obtainSparseMatrix_coeff entries r c,
   fun h => (obtainSparseMatrix_coeff entries r c).trans
     (entrySum_of_no_entry entries r c h)⟩

/-- Duplicate-coordinate example for the C1 witness. -/
def entriesDup : List SparseEntry := [(0, 0, 2), (0, 0, 3), (1, 1, 7)]

/-- C1 witness: at `(0,0)` the duplicate entries `2` and `3` accumulate to
`5`; the untouched coordinate `(2,0)` is zero. -/
theorem assemble_coeff_is_entry_sum_witness :
    ((obtainSparseMatrix entriesDup).coeff 0 0 = entrySum entriesDup 0 0 ∧
      entrySum entriesDup 0 0 = 5) ∧
    ((∀ e ∈ entriesDup, e.1 ≠ 2 ∨ e.2.1 ≠ 0) ∧
      (obtainSparseMatrix entriesDup).coeff 2 0 = 0) :=
  ⟨⟨(assemble_coeff_is_entry_sum entriesDup 0 0).1,
    by simp [entrySum, entriesDup]; norm_num⟩,
   ⟨by decide,
    (assemble_coeff_is_entry_sum entriesDup 2 0).2 (by decide)⟩⟩

/-- C5: The assembled matrix has shape `(R+1) × (C+1)` where `R` and `C`
are the maximum row and column indices among the entries (the shape is
derived from the data), and the empty sequence yields a `1×1` matrix. -/
theorem assemble_shape (entries : List SparseEntry) :
    (entries = [] →
      (obtainSparseMatrix entries).rows = 1 ∧
        (obtainSparseMatrix entries).cols = 1) ∧
    (∀ e ∈ entries, e.1 + 1 ≤ (obtainSparseMatrix entries).rows ∧
      e.2.1 + 1 ≤ (obtainSparseMatrix entries).cols) ∧
    (entries ≠ [] →
      ((obtainSparseMatrix entries).rows - 1) ∈ (entries.map fun e => e.1) ∧
      ((obtainSparseMatrix entries).cols - 1) ∈ (entries.map fun e => e.2.1)) := by
  refine ⟨?_, ?_, ?_⟩
  · rintro rfl
    exact ⟨rfl, rfl⟩
  · intro e he
    exact ⟨Nat.succ_le_succ (le_maxRowAcc entries e he),
      Nat.succ_le_succ (le_maxColAcc entries e he)⟩
  · intro h
    refine ⟨?_, ?_⟩
    · simpa [obtainSparseMatrix] using maxRowAcc_mem entries h
    · simpa [obtainSparseMatrix] using maxColAcc_mem entries h

/-- C5 witness: the empty sequence yields `1×1`; a single entry at `(1,2)`
yields shape `2×3` with the maxima attained. -/
theorem assemble_shape_witness :
    (([] : List SparseEntry) = [] →
      (obtainSparseMatrix ([] : List SparseEntry)).rows = 1 ∧
        (obtainSparseMatrix ([] : List SparseEntry)).cols = 1) ∧
    (((1 : ℕ), (2 : ℕ), (3 : ℚ)) ∈ ([((1 : ℕ), (2 : ℕ), (3 : ℚ))] : List SparseEntry) ∧
      ([((1 : ℕ), (2 : ℕ), (3 : ℚ))] : List SparseEntry) ≠ [] ∧
      (obtainSparseMatrix [((1 : ℕ), (2 : ℕ), (3 : ℚ))]).rows = 2 ∧
      (obtainSparseMatrix [((1 : ℕ), (2 : ℕ), (3 : ℚ))]).cols = 3 ∧
      ((obtainSparseMatrix [((1 : ℕ), (2 : ℕ), (3 : ℚ))]).rows - 1) ∈
        ([((1 : ℕ), (2 : ℕ), (3 : ℚ))].map fun e => e.1) ∧
      ((obtainSparseMatrix [((1 : ℕ), (2 : ℕ), (3 : ℚ))]).cols - 1) ∈
        ([((1 : ℕ), (2 : ℕ), (3 : ℚ))].map fun e => e.2.1)) := by
  refine ⟨(assemble_shape []).1, by decide, by decide, by decide, by decide,
    ((assemble_shape [((1 : ℕ), (2 : ℕ), (3 : ℚ))]).2.2 (by decide)).1,
    ((assemble_shape [((1 : ℕ), (2 : ℕ), (3 : ℚ))]).2.2 (by decide)).2⟩

/-- C8: For every entry sequence and every permutation of it, assembly
produces the same augmented matrix. -/
theorem assemble_perm_invariant (l₁ l₂ : List SparseEntry) (h : l₁.Perm l₂) :
    obtainSparseMatrix l₁ = obtainSparseMatrix l₂ := by
  unfold obtainSparseMatrix
  have h1 := maxRowAcc_perm h
  have h2 := maxColAcc_perm h
  have h3 : setFromTriplets l₁ = setFromTriplets l₂ := by
    funext r c
    rw [setFromTriplets_eq_entrySum, setFromTriplets_eq_entrySum,
      entrySum_perm h]
  rw [h1, h2, h3]

/-- C8 witness: swapping the two duplicate entries `(0,0,2.0)` and
`(0,0,3.0)` leaves the assembled matrix unchanged. -/
theorem assemble_perm_invariant_witness :
    List.Perm
        ([((0 : ℕ), (0 : ℕ), (2 : ℚ)), (0, 0, 3)] : List SparseEntry)
        ([(0, 0, 3), (0, 0, 2)] : List SparseEntry) ∧
      obtainSparseMatrix
          ([((0 : ℕ), (0 : ℕ), (2 : ℚ)), (0, 0, 3)] : List SparseEntry) =
        obtainSparseMatrix ([(0, 0, 3), (0, 0, 2)] : List SparseEntry) :=
  ⟨by decide, assemble_perm_invariant _ _ (by decide)⟩

/-- The malformed input of the C9 trace: a negative row index. -/
def malformedEntries : List RawEntry := [(-1, 0, 5)]

/-- C9: the claim describes the intended behavior (the spec's error
taxonomy prescribes an input-validation rejection at assembly time); the
code implements no validation at all.  Evaluating the code at the failing
input `(-1, 0, 5.0)`: the `size_t` binding wraps the row index to
`2^64 - 1`, the `size_t` shape arithmetic `rows + 1` wraps to `0` rows,
the Eigen triplet narrows the stored row index to the `int` `-1`, and
`setFromTriplets` is handed an out-of-bounds triplet on a `0 × 1` matrix —
an assertion failure / undefined behavior, never a clean input-validation
rejection. -/
theorem malformed_entry_reaches_out_of_bounds :
    toSizeT (-1) = 2 ^ 64 - 1 ∧
    addSizeT (maxRowAcc (convRaw malformedEntries)) 1 = 0 ∧
    addSizeT (maxColAcc (convRaw malformedEntries)) 1 = 1 ∧
    toStorageInt (toSizeT (-1)) = -1 ∧
    obtainSparseMatrixZ malformedEntries = none := by
  refine ⟨by decide, by decide, by decide, by decide, ?_⟩
  rw [obtainSparseMatrixZ, if_neg ?_]
  decide

/-! ### The concrete two-factor system of the spec's scenario

Two one-dimensional factors `1·x = 2` and `1·x = 4` emit the augmented rows
`[1 | 2]` and `[1 | 4]`, i.e. the entries below; they assemble to
`A = [[1],[1]]`, `b = [2,4]`, and the exact solution is `x = [3]`. -/

/-- Entries of the two factors `1·x = 2` and `1·x = 4`. -/
def entriesEx : List SparseEntry := [(0, 0, 1), (0, 1, 2), (1, 0, 1), (1, 1, 4)]

/-- The assembled `2 × 2` augmented matrix of the scenario. -/
def AbEx : SpMat := obtainSparseMatrix entriesEx

/-- The exact solution `x = [3]` of the scenario. -/
def xEx : Fin (AbEx.cols - 1) → ℚ := fun _ => 3

theorem normal_eq_2x1 (A : Matrix (Fin 2) (Fin 1) ℚ) (b : Fin 2 → ℚ)
    (x : Fin 1 → ℚ) (h1 : A 0 0 = 1) (h2 : A 1 0 = 1) (h3 : b 0 = 2)
    (h4 : b 1 = 4) (h5 : x 0 = 3) : (Aᵀ * A).mulVec x = Aᵀ.mulVec b := by
  funext i
  fin_cases i
  simp [Matrix.mulVec, Matrix.mul_apply, dotProduct, Fin.sum_univ_two,
    Fin.sum_univ_one, h1, h2, h3, h4, h5]
  norm_num

theorem fullColRank_2x1 (A : Matrix (Fin 2) (Fin 1) ℚ) (h1 : A 0 0 = 1) :
    FullColRank A := by
  intro v hv
  have h0 := congrFun hv 0
  simp [Matrix.mulVec, dotProduct, Fin.sum_univ_one, h1] at h0
  funext i
  fin_cases i
  simpa using h0

/-- The coefficient block of the scenario, at its literal shape `2 × 1`
(definitionally equal to `AbEx.Amat`). -/
def AEx : Matrix (Fin 2) (Fin 1) ℚ := AbEx.Amat

/-- The right-hand side of the scenario, at its literal length `2`
(definitionally equal to `AbEx.bvec`). -/
def bEx : Fin 2 → ℚ := AbEx.bvec

theorem AEx_00 : AEx 0 0 = 1 := by
  show AbEx.coeff 0 0 = 1
  simp [AbEx, obtainSparseMatrix, setFromTriplets, insertTriplet, entriesEx]

theorem AEx_10 : AEx 1 0 = 1 := by
  show AbEx.coeff 1 0 = 1
  simp [AbEx, obtainSparseMatrix, setFromTriplets, insertTriplet, entriesEx]

theorem bEx_0 : bEx 0 = 2 := by
  show AbEx.coeff 0 1 = 2
  simp [AbEx, obtainSparseMatrix, setFromTriplets, insertTriplet, entriesEx]

theorem bEx_1 : bEx 1 = 4 := by
  show AbEx.coeff 1 1 = 4
  simp [AbEx, obtainSparseMatrix, setFromTriplets, insertTriplet, entriesEx]

theorem AbEx_normal :
    (AbEx.Amatᵀ * AbEx.Amat).mulVec xEx = AbEx.Amatᵀ.mulVec AbEx.bvec :=
  normal_eq_2x1 AEx bEx xEx AEx_00 AEx_10 bEx_0 bEx_1 rfl

theorem AbEx_rank : FullColRank AbEx.Amat :=
  fullColRank_2x1 AEx AEx_00

theorem AbEx_solveQR : solveQR AbEx 1 xEx :=
  (solveQR_iff AbEx 1 xEx).mpr
    (isLeastSquares_of_normal AbEx.Amat AbEx.bvec xEx AbEx_normal)

theorem AbEx_solveCholesky : solveCholesky AbEx 1 xEx :=
  (solveCholesky_iff AbEx 1 xEx).mpr AbEx_normal

/-- C2: for every ordering string outside the four case-sensitive tokens,
both entry points fall through every branch: no factorization is attempted,
the solution vector stays in its default-constructed (indeterminate) state,
and the caller receives no computed solution. -/
theorem unrecognized_ordering_no_solve (entries : List SparseEntry)
    (orderingType : String) (keyDimMap : KeyDimMap) (res₁ res₂ : VectorValues)
    (h1 : orderingType ≠ "AMD") (h2 : orderingType ≠ "COLAMD")
    (h3 : orderingType ≠ "NATURAL") (h4 : orderingType ≠ "METIS") :
    (optimizeEigenQR entries orderingType keyDimMap res₁ →
      res₁ = ⟨EigenVec.indeterminate, keyDimMap⟩) ∧
    (optimizeEigenCholesky entries orderingType keyDimMap res₂ →
      res₂ = ⟨EigenVec.indeterminate, keyDimMap⟩) := by
  unfold optimizeEigenQR optimizeEigenCholesky
  simp only [if_neg h1, if_neg h2, if_neg h3, if_neg h4]
  exact ⟨id, id⟩

/-- C2 witness: the unrecognized string `"BOGUS"` leaves both entry points
with the indeterminate solution vector. -/
theorem unrecognized_ordering_no_solve_witness :
    (("BOGUS" : String) ≠ "AMD" ∧ ("BOGUS" : String) ≠ "COLAMD" ∧
      ("BOGUS" : String) ≠ "NATURAL" ∧ ("BOGUS" : String) ≠ "METIS") ∧
    (optimizeEigenQR [] "BOGUS" [(0, 1)]
        ⟨EigenVec.indeterminate, [(0, 1)]⟩ →
      (⟨EigenVec.indeterminate, [(0, 1)]⟩ : VectorValues) =
        ⟨EigenVec.indeterminate, [(0, 1)]⟩) ∧
    (optimizeEigenCholesky [] "BOGUS" [(0, 1)]
        ⟨EigenVec.indeterminate, [(0, 1)]⟩ →
      (⟨EigenVec.indeterminate, [(0, 1)]⟩ : VectorValues) =
        ⟨EigenVec.indeterminate, [(0, 1)]⟩) := by
  have h := unrecognized_ordering_no_solve [] "BOGUS" [(0, 1)]
    ⟨EigenVec.indeterminate, [(0, 1)]⟩ ⟨EigenVec.indeterminate, [(0, 1)]⟩
    (by decide) (by decide) (by decide) (by decide)
  exact ⟨⟨by decide, by decide, by decide, by decide⟩, h.1, h.2⟩

/-- C3: on a full-column-rank (consistent, well-conditioned, overdetermined)
assembled system, the QR strategy and the Cholesky strategy under the same
ordering agree exactly (in exact arithmetic the tolerance is zero). -/
theorem qr_cholesky_agree (entries : List SparseEntry)
    (σ : Equiv.Perm (Fin ((obtainSparseMatrix entries).cols - 1)))
    (xq xc : Fin ((obtainSparseMatrix entries).cols - 1) → ℚ)
    (hrank : FullColRank (obtainSparseMatrix entries).Amat)
    (hq : solveQR (obtainSparseMatrix entries) σ xq)
    (hc : solveCholesky (obtainSparseMatrix entries) σ xc) : xq = xc :=
  normal_unique (obtainSparseMatrix entries).Amat
    (obtainSparseMatrix entries).bvec xq xc hrank
    (normal_of_isLeastSquares _ _ _ ((solveQR_iff _ σ xq).mp hq))
    ((solveCholesky_iff _ σ xc).mp hc)

/-- C3 witness: for the spec's concrete scenario (`A = [[1],[1]]`,
`b = [2,4]`), both strategies yield `x = [3]` and therefore agree. -/
theorem qr_cholesky_agree_witness :
    FullColRank (obtainSparseMatrix entriesEx).Amat ∧
    solveQR (obtainSparseMatrix entriesEx) 1 xEx ∧
    solveCholesky (obtainSparseMatrix entriesEx) 1 xEx ∧
    xEx = (fun _ => 3) ∧ xEx = xEx :=
  ⟨AbEx_rank, AbEx_solveQR, AbEx_solveCholesky, rfl,
    qr_cholesky_agree entriesEx 1 xEx xEx AbEx_rank AbEx_solveQR
      AbEx_solveCholesky⟩

/-- C4: the ordering policy never changes the solution.  At the strategy
level, for any two ordering permutations (covering whatever permutations
the four recognized policies resolve to) the result relations coincide on
every augmented matrix; at the entry-point level, any two recognized
ordering tokens admit exactly the same results. -/
theorem ordering_policy_independent (Ab : SpMat)
    (σ τ : Equiv.Perm (Fin (Ab.cols - 1))) (x : Fin (Ab.cols - 1) → ℚ)
    (entries : List SparseEntry) (keyDimMap : KeyDimMap) (res : VectorValues)
    (ord₁ ord₂ : String) (h₁ : ord₁ ∈ recognizedOrderings)
    (h₂ : ord₂ ∈ recognizedOrderings) :
    (solveQR Ab σ x ↔ solveQR Ab τ x) ∧
    (solveCholesky Ab σ x ↔ solveCholesky Ab τ x) ∧
    (optimizeEigenQR entries ord₁ keyDimMap res ↔
      optimizeEigenQR entries ord₂ keyDimMap res) ∧
    (optimizeEigenCholesky entries ord₁ keyDimMap res ↔
      optimizeEigenCholesky entries ord₂ keyDimMap res) :=
  ⟨(solveQR_iff Ab σ x).trans (solveQR_iff Ab τ x).symm,
   (solveCholesky_iff Ab σ x).trans (solveCholesky_iff Ab τ x).symm,
   (optimizeEigenQR_recognized entries ord₁ keyDimMap res h₁).trans
     (optimizeEigenQR_recognized entries ord₂ keyDimMap res h₂).symm,
   (optimizeEigenCholesky_recognized entries ord₁ keyDimMap res h₁).trans
     (optimizeEigenCholesky_recognized entries ord₂ keyDimMap res h₂).symm⟩

/-- C4 witness: instantiated on the concrete scenario matrix with the
tokens `"AMD"` and `"METIS"`. -/
theorem ordering_policy_independent_witness :
    (("AMD" : String) ∈ recognizedOrderings ∧
      ("METIS" : String) ∈ recognizedOrderings) ∧
    ((solveQR AbEx 1 xEx ↔ solveQR AbEx 1 xEx) ∧
      (solveCholesky AbEx 1 xEx ↔ solveCholesky AbEx 1 xEx) ∧
      (optimizeEigenQR entriesEx "AMD" [(0, 1)]
          ⟨EigenVec.indeterminate, [(0, 1)]⟩ ↔
        optimizeEigenQR entriesEx "METIS" [(0, 1)]
          ⟨EigenVec.indeterminate, [(0, 1)]⟩) ∧
      (optimizeEigenCholesky entriesEx "AMD" [(0, 1)]
          ⟨EigenVec.indeterminate, [(0, 1)]⟩ ↔
        optimizeEigenCholesky entriesEx "METIS" [(0, 1)]
          ⟨EigenVec.indeterminate, [(0, 1)]⟩)) :=
  ⟨⟨by decide, by decide⟩,
    ordering_policy_independent AbEx 1 1 xEx entriesEx [(0, 1)]
      ⟨EigenVec.indeterminate, [(0, 1)]⟩ "AMD" "METIS" (by decide) (by decide)⟩

/-- C6: the QR strategy splits `Ab` into `A` (all columns but the last) and
`b` (the last column), factorizes `A` by sparse QR under the resolved
ordering permutation, and returns an `x` minimizing `‖Ax − b‖₂`. -/
theorem qr_returns_least_squares (Ab : SpMat)
    (σ : Equiv.Perm (Fin (Ab.cols - 1))) (x : Fin (Ab.cols - 1) → ℚ)
    (h : solveQR Ab σ x) :
    ∀ y, resSq Ab.Amat Ab.bvec x ≤ resSq Ab.Amat Ab.bvec y :=
  (solveQR_iff Ab σ x).mp h

/-- C6 witness: the scenario matrix under the identity ordering: `x = [3]`
minimizes the residual. -/
theorem qr_returns_least_squares_witness :
    solveQR AbEx 1 xEx ∧
      ∀ y, resSq AbEx.Amat AbEx.bvec xEx ≤ resSq AbEx.Amat AbEx.bvec y :=
  ⟨AbEx_solveQR, qr_returns_least_squares AbEx 1 xEx AbEx_solveQR⟩

/-- C7: the Cholesky strategy splits `Ab` into `A` and `b`, forms
`N = AᵀA` and `c = Aᵀb`, factorizes `N` by sparse LDLT under the resolved
ordering permutation, and returns an `x` solving `N x = c`. -/
theorem cholesky_solves_normal_equations (Ab : SpMat)
    (σ : Equiv.Perm (Fin (Ab.cols - 1))) (x : Fin (Ab.cols - 1) → ℚ)
    (h : solveCholesky Ab σ x) :
    (Ab.Amatᵀ * Ab.Amat).mulVec x = Ab.Amatᵀ.mulVec Ab.bvec :=
  (solveCholesky_iff Ab σ x).mp h

/-- C7 witness: the scenario matrix under the identity ordering: `x = [3]`
solves `N x = c` (`N = [2]`, `c = [6]`). -/
theorem cholesky_solves_normal_equations_witness :
    solveCholesky AbEx 1 xEx ∧
      (AbEx.Amatᵀ * AbEx.Amat).mulVec xEx = AbEx.Amatᵀ.mulVec AbEx.bvec :=
  ⟨AbEx_solveCholesky,
    cholesky_solves_normal_equations AbEx 1 xEx AbEx_solveCholesky⟩

/-! ### The empty factor graph -/

/-- A key-dimension map for the empty-graph claim. -/
def kdEx : KeyDimMap := [(7, 1)]

/-- The (unique) length-0 solution vector of the degenerate empty system. -/
def zeroLenVec : Fin ((obtainSparseMatrix ([] : List SparseEntry)).cols - 1) → ℚ :=
  fun _ => 0

/-- The result both entry points produce on the empty graph: a computed
(not indeterminate) vector of length 0, paired with the key-dimension map. -/
def emptyRes : VectorValues :=
  ⟨EigenVec.vec ((obtainSparseMatrix ([] : List SparseEntry)).cols - 1)
    zeroLenVec, kdEx⟩

theorem emptySystem_vec_unique
    (y z : Fin ((obtainSparseMatrix ([] : List SparseEntry)).cols - 1) → ℚ) :
    y = z :=
  funext fun i => Fin.elim0 (Fin.cast rfl i)

/-- C10: on the empty entry sequence, assembly yields the `1×1` zero matrix
and, for every recognized ordering, both entry points complete without any
error: the solver splits off a zero-column `A`, returns the length-0
solution vector, and the `VectorValues` result is still constructed from it
and the key-dimension map — never the indeterminate default, and no
"empty system" error. -/
theorem empty_graph_no_error (ord : String) (res₁ res₂ : VectorValues)
    (h : ord ∈ recognizedOrderings) :
    (obtainSparseMatrix ([] : List SparseEntry)).rows = 1 ∧
    (obtainSparseMatrix ([] : List SparseEntry)).cols = 1 ∧
    (∀ r c, (obtainSparseMatrix ([] : List SparseEntry)).coeff r c = 0) ∧
    optimizeEigenQR [] ord kdEx emptyRes ∧
    optimizeEigenCholesky [] ord kdEx emptyRes ∧
    (optimizeEigenQR [] ord kdEx res₁ → res₁ = emptyRes) ∧
    (optimizeEigenCholesky [] ord kdEx res₂ → res₂ = emptyRes) := by
  have hLS : IsLeastSquares (obtainSparseMatrix ([] : List SparseEntry)).Amat
      (obtainSparseMatrix ([] : List SparseEntry)).bvec zeroLenVec := by
    intro y
    rw [emptySystem_vec_unique y zeroLenVec]
  have hNE : ((obtainSparseMatrix ([] : List SparseEntry)).Amatᵀ *
        (obtainSparseMatrix ([] : List SparseEntry)).Amat).mulVec zeroLenVec =
      (obtainSparseMatrix ([] : List SparseEntry)).Amatᵀ.mulVec
        (obtainSparseMatrix ([] : List SparseEntry)).bvec :=
    emptySystem_vec_unique _ _
  refine ⟨rfl, rfl, fun r c => rfl, ?_, ?_, ?_, ?_⟩
  · exact (optimizeEigenQR_recognized [] ord kdEx emptyRes h).mpr
      ⟨zeroLenVec, hLS, rfl⟩
  · exact (optimizeEigenCholesky_recognized [] ord kdEx emptyRes h).mpr
      ⟨zeroLenVec, hNE, rfl⟩
  · intro hres
    obtain ⟨x, -, rfl⟩ :=
      (optimizeEigenQR_recognized [] ord kdEx res₁ h).mp hres
    rw [emptySystem_vec_unique x zeroLenVec]
    rfl
  · intro hres
    obtain ⟨x, -, rfl⟩ :=
      (optimizeEigenCholesky_recognized [] ord kdEx res₂ h).mp hres
    rw [emptySystem_vec_unique x zeroLenVec]
    rfl

/-- C10 witness: instantiated at the `"NATURAL"` ordering. -/
theorem empty_graph_no_error_witness :
    ("NATURAL" : String) ∈ recognizedOrderings ∧
    ((obtainSparseMatrix ([] : List SparseEntry)).rows = 1 ∧
      (obtainSparseMatrix ([] : List SparseEntry)).cols = 1 ∧
      (∀ r c, (obtainSparseMatrix ([] : List SparseEntry)).coeff r c = 0) ∧
      optimizeEigenQR [] "NATURAL" kdEx emptyRes ∧
      optimizeEigenCholesky [] "NATURAL" kdEx emptyRes ∧
      (optimizeEigenQR [] "NATURAL" kdEx emptyRes → emptyRes = emptyRes) ∧
      (optimizeEigenCholesky [] "NATURAL" kdEx emptyRes →
        emptyRes = emptyRes)) :=
  ⟨by decide, empty_graph_no_error "NATURAL" emptyRes emptyRes (by decide)⟩

end EigenOpt
